import Mathlib

/-!
Verification of the Medevio help-agent documentation scrape-and-embed pipeline
(`src/mastra/workflows/docs-scraper-workflow.ts`,
`src/mastra/workflows/embed-docs-workflow.ts`) against its specification.

Strings are modelled as `List Char`.  JavaScript string/regex operations used
by the code are translated into executable list functions.  External
collaborators (the HTML selector, the Markdown chunker, the Unicode NFD
normalizer, the embedding provider, the vector store) are modelled as
parameters or as recorded events, exactly at the boundary where the source
calls them.
-/

namespace Medevio

abbrev Str := List Char

/-- The whitespace characters recognised by this model of JavaScript's
`String.prototype.trim` and the regex class `\s` (the ASCII fragment:
space, tab, line feed, carriage return, vertical tab, form feed). -/
def isJsWs (c : Char) : Bool :=
  c == ' ' || c == '\t' || c == '\n' || c == '\r' ||
  c == Char.ofNat 11 || c == Char.ofNat 12

/-- JavaScript regex line terminators (`\n`, `\r`, U+2028, U+2029). -/
def isLineTerm (c : Char) : Bool :=
  c == '\n' || c == '\r' || c == Char.ofNat 0x2028 || c == Char.ofNat 0x2029

/-- The JavaScript regex `.` (without the `s` flag): any character except a
line terminator. -/
def isDot (c : Char) : Bool := !isLineTerm c

/-- Model of JavaScript `s.trim()`: drop whitespace from both ends. -/
def jsTrim (s : Str) : Str :=
  ((s.dropWhile isJsWs).reverse.dropWhile isJsWs).reverse

/-- `leadsWith pat s` holds when `pat` is an initial segment of `s`. -/
def leadsWith : Str → Str → Bool
  | [], _ => true
  | _ :: _, [] => false
  | p :: ps, c :: cs => p == c && leadsWith ps cs

/-- Model of JavaScript `s.includes(pat)`: `pat` occurs somewhere in `s`. -/
def hasSub (pat : Str) : Str → Bool
  | [] => leadsWith pat []
  | c :: cs => leadsWith pat (c :: cs) || hasSub pat cs

/-- Split a string at the first occurrence of `pat`, returning the part
before the occurrence and the part after it.  This is the semantics of a
lazy regex group followed by the literal `pat`. -/
def splitAtSub (pat : Str) : Str → Option (Str × Str)
  | [] => if leadsWith pat [] then some ([], []) else none
  | c :: cs =>
    if leadsWith pat (c :: cs) then some ([], (c :: cs).drop pat.length)
    else
      match splitAtSub pat cs with
      | some (a, b) => some (c :: a, b)
      | none => none

/-- Continuation of a lazy capture: `(.*?)"` — the shortest run of
`.`-matching characters terminated by a double quote.  The terminator is
tried before extending the capture, which is exactly lazy semantics. -/
def capLoop : Str → Option Str
  | [] => none
  | c :: cs =>
    if c == '"' then some []
    else if isDot c then (capLoop cs).map (c :: ·) else none

/-- The regex fragment `(.+?)"`: at least one `.`-matching character,
lazily extended, terminated by a double quote. -/
def lazyCap : Str → Option Str
  | [] => none
  | c :: cs => if isDot c then (capLoop cs).map (c :: ·) else none

/-- The regex fragment `\s*"(.+?)"` applied at a fixed position.  Greedy
`\s*` with backtracking collapses to: the quote must be the first
non-whitespace character (whitespace characters are never `"` so no other
backtracking alternative can succeed). -/
def afterKey (s : Str) : Option Str :=
  match s.dropWhile isJsWs with
  | c :: rest => if c == '"' then lazyCap rest else none
  | [] => none

/-- The regex `key\s*"(.+?)"` searched left to right over a string:
at the leftmost occurrence of the literal `key` where the rest of the
pattern also matches, return the captured group. -/
def findKeyQuoted (key : Str) : Str → Option Str
  | [] => none
  | c :: cs =>
    if leadsWith key (c :: cs) then
      match afterKey ((c :: cs).drop key.length) with
      | some v => some v
      | none => findKeyQuoted key cs
    else findKeyQuoted key cs

/-- A character that round-trips through the frontmatter format: not a
double quote and not a line terminator. -/
def goodChar (c : Char) : Prop := c ≠ '"' ∧ isLineTerm c = false

instance goodCharDecidable (c : Char) : Decidable (goodChar c) := by
  unfold goodChar
  infer_instance

/-! ### Frontmatter serialization (docs-scraper-workflow.ts lines 176–189)
and re-parsing (embed workflows, `chunkAndEmbed`). -/

/-- Model of `title.replace(/"/g, '\\"')`: every double quote becomes a
backslash followed by a double quote. -/
def escapeQuotes : Str → Str
  | [] => []
  | c :: cs => if c == '"' then '\\' :: '"' :: escapeQuotes cs else c :: escapeQuotes cs

def fmOpen : Str := ['-', '-', '-', '\n']
def fmSep : Str := ['\n', '-', '-', '-', '\n']
def titleKey : Str := ['t', 'i', 't', 'l', 'e', ':']
def sourceKey : Str := ['s', 'o', 'u', 'r', 'c', 'e', ':']
def scrapedKey : Str := ['s', 'c', 'r', 'a', 'p', 'e', 'd', '_', 'a', 't', ':']
def quoteOpen : Str := [' ', '"']
def quoteClose : Str := ['"', '\n']

/-- The on-disk content written for one scraped article
(`frontmatter + markdown` in `processIndexUrl`):
`---\ntitle: "<escaped>"\nsource: "<url>"\nscraped_at: "<ts>"\n---\n\n<markdown>`. -/
def writeArticle (title url ts markdown : Str) : Str :=
  fmOpen ++
  titleKey ++ quoteOpen ++ escapeQuotes title ++ quoteClose ++
  sourceKey ++ quoteOpen ++ url ++ quoteClose ++
  scrapedKey ++ quoteOpen ++ ts ++ quoteClose ++
  ['-', '-', '-', '\n', '\n'] ++ markdown

structure ParsedArticle where
  title : Str
  source : Str
  markdown : Str
deriving DecidableEq

/-- Model of the regex `^---\n([\s\S]*?)\n---\n\n?([\s\S]*)$`: the content
must open with `---\n`; the lazy first group runs to the first occurrence of
`\n---\n`; one following blank newline is absorbed by the greedy `\n?`. -/
def frontmatterSplit (content : Str) : Option (Str × Str) :=
  if leadsWith fmOpen content then
    match splitAtSub fmSep (content.drop 4) with
    | some (fm, rest) =>
      some (fm, match rest with
                | '\n' :: r => r
                | r => r)
    | none => none
  else none

/-- The frontmatter extraction of `chunkAndEmbed`: `markdown` defaults to the
whole content when the frontmatter regex does not match; `title` and
`source` default to the empty string when their regexes do not match
(matched with `/title:\s*"(.+?)"/` and `/source:\s*"(.+?)"/`, with no
unescaping). -/
def parseArticle (content : Str) : ParsedArticle :=
  match frontmatterSplit content with
  | some (fm, body) =>
    { title := (findKeyQuoted titleKey fm).getD []
      source := (findKeyQuoted sourceKey fm).getD []
      markdown := body }
  | none => { title := [], source := [], markdown := content }

/-! ### Filename sanitizer (docs-scraper-workflow.ts lines 30–38) -/

/-- The regex class `[a-z0-9]` (character codes 97–122 and 48–57). -/
def isAlnumLower (c : Char) : Bool :=
  (97 ≤ c.toNat && c.toNat ≤ 122) || (48 ≤ c.toNat && c.toNat ≤ 57)

/-- A character allowed in a finished slug: `[a-z0-9-]`. -/
def isSlugChar (c : Char) : Bool := isAlnumLower c || c == '-'

/-- The combining diacritical marks range U+0300–U+036F removed by
`.replace(/[̀-ͯ]/g, '')`. -/
def isCombining (c : Char) : Bool := 0x300 ≤ c.toNat && c.toNat ≤ 0x36f

/-- Model of `String.prototype.toLowerCase` on the ASCII range: `A`–`Z`
(codes 65–90) shift down by 32, everything else is unchanged. -/
def jsLowerChar (c : Char) : Char :=
  if 65 ≤ c.toNat ∧ c.toNat ≤ 90 then Char.ofNat (c.toNat + 32) else c

/-- Model of `.replace(/[^a-z0-9]+/g, '-')`: every maximal run of
characters outside `[a-z0-9]` collapses to a single hyphen.  A non-matching
character merges into the run already opened by the rest of the string when
that run is present. -/
def replaceRuns : Str → Str
  | [] => []
  | c :: cs =>
    if isAlnumLower c then c :: replaceRuns cs
    else
      let r := replaceRuns cs
      if r.head? = some '-' then r else '-' :: r

/-- Adjacent characters are never both hyphens — the shape `replaceRuns`
guarantees, since every non-alnum run collapses to a single hyphen. -/
def noDashPair (a b : Char) : Prop := ¬(a = '-' ∧ b = '-')

/-- Model of `.replace(/^-+|-+$/g, '')`: drop hyphens from both ends. -/
def trimDashes (s : Str) : Str :=
  ((s.dropWhile (· == '-')).reverse.dropWhile (· == '-')).reverse

/-- `sanitizeFilename` from the scraper: lowercase, NFD-normalize (the
Unicode normalization itself is the external `String.prototype.normalize`,
taken as the parameter `nfd`), strip combining marks, collapse non-alnum
runs to hyphens, trim hyphens, truncate to 100 characters (`slice(0, 100)`;
the intermediate string is ASCII at that point, so code-unit slicing agrees
with character slicing). -/
def sanitizeFilename (nfd : Str → Str) (title : Str) : Str :=
  (trimDashes (replaceRuns
    ((nfd (title.map jsLowerChar)).filter (fun c => !isCombining c)))).take 100

/-! ### Link extraction (docs-scraper-workflow.ts lines 90–100)

The cheerio selection `$index('a.row')` is external; its result is modelled
as the DOM-ordered list of anchors, each carrying the optional `href`
attribute and the raw title text found under `.col-md-8 .line-clamp-2`. -/

structure Anchor where
  href : Option Str
  titleText : Str
deriving DecidableEq

structure ArticleLink where
  url : Str
  title : Str
deriving DecidableEq

def articlesPat : Str :=
  ['/', 's', 'u', 'p', 'p', 'o', 'r', 't', '/', 's', 'o', 'l', 'u', 't', 'i',
   'o', 'n', 's', '/', 'a', 'r', 't', 'i', 'c', 'l', 'e', 's', '/']

def httpPat : Str := ['h', 't', 't', 'p']

/-- `href.startsWith('http') ? href : baseUrl + href`. -/
def resolveUrl (baseUrl h : Str) : Str :=
  if leadsWith httpPat h then h else baseUrl ++ h

/-- One anchor's contribution: the body of the `each` callback.  The title
is `.text().trim()`; the JavaScript truthiness test `href && title` demands
both be non-empty; the href must contain the article URL pattern. -/
def qualify (baseUrl : Str) (a : Anchor) : Option ArticleLink :=
  match a.href with
  | some h =>
    if h ≠ [] ∧ jsTrim a.titleText ≠ [] ∧ hasSub articlesPat h then
      some ⟨resolveUrl baseUrl h, jsTrim a.titleText⟩
    else none
  | none => none

/-- The full link-extraction pass: every qualifying anchor is pushed, in DOM
order.  The source performs no deduplication. -/
def extractLinks (baseUrl : Str) (anchors : List Anchor) : List ArticleLink :=
  anchors.filterMap (qualify baseUrl)

/-! ### The per-page article loop (docs-scraper-workflow.ts lines 135–204)

Network fetches and the 500 ms courtesy delay are modelled as recorded
events; whether one article makes it all the way to a written file (fetch
ok, content container present and non-empty, write succeeded) is the
article's boolean outcome, supplied alongside each link. -/

inductive Event where
  | delayMs (n : Nat)
  | fetchArticle (url : Str)
deriving DecidableEq

def isDelay : Event → Bool
  | .delayMs _ => true
  | .fetchArticle _ => false

structure PageOut where
  events : List Event
  processed : Nat
  files : List Str
deriving DecidableEq

def mdExt : Str := ['.', 'm', 'd']

/-- The `for (const link of links)` loop.  `p` is the running `processed`
counter; the delay is emitted only when `processed > 0` at the top of the
iteration; the fetch always happens; on success the sanitized filename is
recorded and `processed` is incremented. -/
def articleLoop (nfd : Str → Str) : Nat → List (ArticleLink × Bool) → PageOut
  | p, [] => { events := [], processed := p, files := [] }
  | p, (l, ok) :: rest =>
    let pre : List Event := if 0 < p then [.delayMs 500] else []
    if ok then
      let out := articleLoop nfd (p + 1) rest
      { events := pre ++ Event.fetchArticle l.url :: out.events
        processed := out.processed
        files := (sanitizeFilename nfd l.title ++ mdExt) :: out.files }
    else
      let out := articleLoop nfd p rest
      { out with events := pre ++ Event.fetchArticle l.url :: out.events }

/-- The number of articles strictly after the first successful one: the
closed form of how many 500 ms delays the loop emits when started with
`processed = 0`. -/
def delaysExpected : List (ArticleLink × Bool) → Nat
  | [] => 0
  | (_, ok) :: rest => if ok then rest.length else delaysExpected rest

structure IndexPageResult where
  processed : Nat
  files : List Str
deriving DecidableEq

/-- The `processIndexUrl` step after the index page has been fetched and
parsed: extract the links; with zero links, warn and return
`{processed: 0, files: []}` without throwing; otherwise run the article
loop from `processed = 0`. -/
def processIndexUrlModel (nfd : Str → Str) (baseUrl : Str) (anchors : List Anchor)
    (outcomes : List Bool) : IndexPageResult × List Event :=
  let links := extractLinks baseUrl anchors
  if links.isEmpty then ({ processed := 0, files := [] }, [])
  else
    let out := articleLoop nfd 0 (links.zip outcomes)
    ({ processed := out.processed, files := out.files }, out.events)

inductive ScrapeError where
  | noLinksFound
deriving DecidableEq

/-- Modelled from the spec: the single-page entry point is not present under
`src/` (only its caller shape survives in `scripts/run-scraper.ts`); per
§4.1/§7 of the spec it runs the same link extraction and sequential article
loop but fails hard with `NoLinksFoundError` when the extracted list is
empty. -/
def processSinglePage (nfd : Str → Str) (baseUrl : Str) (anchors : List Anchor)
    (outcomes : List Bool) : Except ScrapeError (IndexPageResult × List Event) :=
  let links := extractLinks baseUrl anchors
  if links.isEmpty then .error .noLinksFound
  else
    let out := articleLoop nfd 0 (links.zip outcomes)
    .ok ({ processed := out.processed, files := out.files }, out.events)

/-! ### Aggregation (docs-scraper-workflow.ts lines 223–232) -/

structure AggregateResult where
  totalProcessed : Nat
  allFiles : List Str
deriving DecidableEq

/-- `aggregateResults`: `reduce((sum, r) => sum + r.processed, 0)` and
`flatMap(r => r.files)`. -/
def aggregateResults (rs : List IndexPageResult) : AggregateResult :=
  { totalProcessed := rs.foldl (fun s r => s + r.processed) 0
    allFiles := (rs.map (·.files)).flatten }

/-! ### The chunk-and-embed phase (embed-docs-workflow.ts lines 53–154,
docs-scraper-workflow.ts lines 247–346)

The Markdown chunker (`MDocument.chunk`) is the external `@mastra/rag`
library, modelled as the parameter `chunker` from a Markdown body to the
list of chunk texts.  The embedding provider returns one vector per input
text (spec §6), so a successful `embedMany` contributes exactly
`texts.length` to `totalEmbedded`; each provider call is recorded as the
list of chunk texts it receives. -/

/-- The batching loop header `for (let i = 0; i < files.length; i += 10)`
with `files.slice(i, i + 10)`: consecutive slices of at most 10 files. -/
def slices10 : List α → List (List α)
  | [] => []
  | l@(_ :: _) => l.take 10 :: slices10 (l.drop 10)
termination_by l => l.length
decreasing_by simp_all [List.length_drop]; omega

/-- The chunks one file contributes to its batch: parse the frontmatter,
skip the file when the remaining Markdown is whitespace-only
(`if (!markdown.trim()) continue`), chunk it, and keep only chunk texts
that are not whitespace-only (`if (!text.trim()) continue`). -/
def fileChunkTexts (chunker : Str → List Str) (content : Str) : List Str :=
  let parsed := parseArticle content
  if jsTrim parsed.markdown = [] then []
  else (chunker parsed.markdown).filter (fun t => jsTrim t ≠ [])

structure EmbedAcc where
  calls : List (List Str)
  totalChunks : Nat
  totalEmbedded : Nat
deriving DecidableEq

/-- One iteration of the batch loop: gather the batch's chunk texts file by
file, add them to `totalChunks`, and when the batch is non-empty call the
embedding provider (recorded in `calls`) and add the embedding count to
`totalEmbedded`. -/
def embedBatchStep (chunker : Str → List Str) (acc : EmbedAcc)
    (batch : List Str) : EmbedAcc :=
  let texts := (batch.map (fileChunkTexts chunker)).flatten
  let tc := acc.totalChunks + texts.length
  if texts.length = 0 then { acc with totalChunks := tc }
  else
    { calls := acc.calls ++ [texts]
      totalChunks := tc
      totalEmbedded := acc.totalEmbedded + texts.length }

/-- The whole embed phase over the file contents, in file order. -/
def embedPhase (chunker : Str → List Str) (files : List Str) : EmbedAcc :=
  (slices10 files).foldl (embedBatchStep chunker) ⟨[], 0, 0⟩

/-! ### Concrete inputs used by counterexamples and witnesses -/

/-- A title of 51 one-letter words separated by single spaces (103
characters), whose slug before truncation is 103 characters long, so that
`slice(0, 100)` cuts immediately after a hyphen. -/
def longSpacedTitle : Str := (List.replicate 51 ['a', ' ']).flatten ++ ['a']

/-- A title containing an embedded double quote. -/
def quotedTitle : Str := ['a', '"', 'b']

/-- A plain short title. -/
def plainTitle : Str := ['h', 'e', 'l', 'l', 'o']

/-- A plain article URL. -/
def plainUrl : Str :=
  ['h', 't', 't', 'p', 's', ':', '/', '/', 'x', '/', 'a']

/-- A plain timestamp-shaped string. -/
def plainTs : Str := ['2', '0', '2', '4', '-', '0', '1', '-', '0', '2']

/-- A plain Markdown body. -/
def plainBody : Str := ['#', ' ', 'H', 'i', '\n', 'B', 'o', 'd', 'y']

/-- A chunker producing eleven non-whitespace chunks for any body. -/
def elevenChunker : Str → List Str := fun _ => List.replicate 11 ['a']

/-- A chunker producing one whitespace-only chunk and one real chunk. -/
def wsChunker : Str → List Str := fun _ => [[' '], ['x']]

/-- A one-file corpus whose single content is the letter `y` (no
frontmatter, non-whitespace body). -/
def oneFileCorpus : List Str := [['y']]

/-- An anchor that qualifies: article-pattern href and non-empty title. -/
def okAnchor : Anchor :=
  { href := some (['/', 's', 'u', 'p', 'p', 'o', 'r', 't', '/', 's', 'o', 'l',
      'u', 't', 'i', 'o', 'n', 's', '/', 'a', 'r', 't', 'i', 'c', 'l', 'e',
      's', '/', '1'])
    titleText := ['T'] }

/-- A second qualifying anchor with a different href. -/
def okAnchor2 : Anchor :=
  { href := some (['/', 's', 'u', 'p', 'p', 'o', 'r', 't', '/', 's', 'o', 'l',
      'u', 't', 'i', 'o', 'n', 's', '/', 'a', 'r', 't', 'i', 'c', 'l', 'e',
      's', '/', '2'])
    titleText := ['U'] }

/-- A base URL for resolving relative hrefs. -/
def someBase : Str := ['h', 't', 't', 'p', 's', ':', '/', '/', 'h']

/-- A two-article page where the first article fails and the second
succeeds. -/
def failThenOk : List (ArticleLink × Bool) :=
  [(⟨['u', '1'], ['t', '1']⟩, false), (⟨['u', '2'], ['t', '2']⟩, true)]

/-! ## Helper lemmas -/

theorem articleLoop_processed (nfd : Str → Str) :
    ∀ (L : List (ArticleLink × Bool)) (p : Nat),
      (articleLoop nfd p L).processed = p + (articleLoop nfd p L).files.length := by
  intro L
  induction L with
  | nil => intro p; simp [articleLoop]
  | cons hd tl ih =>
    intro p
    obtain ⟨l, ok⟩ := hd
    cases ok with
    | false => simpa [articleLoop] using ih p
    | true =>
      have h := ih (p + 1)
      simp only [articleLoop, if_true, List.length_cons]
      simp only [h]
      omega

theorem processIndexUrlModel_processed (nfd : Str → Str) (baseUrl : Str)
    (anchors : List Anchor) (outcomes : List Bool) :
    (processIndexUrlModel nfd baseUrl anchors outcomes).1.processed
      = (processIndexUrlModel nfd baseUrl anchors outcomes).1.files.length := by
  unfold processIndexUrlModel
  by_cases h : (extractLinks baseUrl anchors).isEmpty
  · simp [h]
  · simpa [h] using
      articleLoop_processed nfd ((extractLinks baseUrl anchors).zip outcomes) 0

theorem aggregate_foldl_add (rs : List IndexPageResult) :
    ∀ n : Nat, rs.foldl (fun s r => s + r.processed) n
      = n + (rs.map (·.processed)).sum := by
  induction rs with
  | nil => simp
  | cons r rs ih => intro n; simp [List.foldl_cons, ih (n + r.processed)]; omega

theorem aggregateResults_consistent (rs : List IndexPageResult)
    (h : ∀ r ∈ rs, r.processed = r.files.length) :
    (aggregateResults rs).totalProcessed = (aggregateResults rs).allFiles.length := by
  unfold aggregateResults
  rw [aggregate_foldl_add rs 0, Nat.zero_add]
  rw [List.length_flatten, List.map_map]
  have hmap : rs.map (·.processed) = rs.map (List.length ∘ (·.files)) :=
    List.map_congr_left fun r hr => h r hr
  rw [hmap]

theorem embedBatchStep_totals (chunker : Str → List Str) (acc : EmbedAcc)
    (b : List Str) (h : acc.totalChunks = acc.totalEmbedded) :
    (embedBatchStep chunker acc b).totalChunks
      = (embedBatchStep chunker acc b).totalEmbedded := by
  unfold embedBatchStep
  set texts := (b.map (fileChunkTexts chunker)).flatten with ht
  by_cases hz : texts.length = 0
  · simp [hz, h]
  · simp [hz, h]

theorem embed_foldl_totals (chunker : Str → List Str) :
    ∀ (batches : List (List Str)) (acc : EmbedAcc),
      acc.totalChunks = acc.totalEmbedded →
      ((batches.foldl (embedBatchStep chunker) acc).totalChunks
        = (batches.foldl (embedBatchStep chunker) acc).totalEmbedded) := by
  intro batches
  induction batches with
  | nil => intro acc h; simpa using h
  | cons b bs ih =>
    intro acc h
    exact ih _ (embedBatchStep_totals chunker acc b h)

theorem embed_foldl_calls (chunker : Str → List Str) :
    ∀ (batches : List (List Str)) (acc : EmbedAcc),
      (batches.foldl (embedBatchStep chunker) acc).calls
        = acc.calls ++
          ((batches.map (fun b => (b.map (fileChunkTexts chunker)).flatten)).filter
            (· ≠ [])) := by
  intro batches
  induction batches with
  | nil => intro acc; simp
  | cons b bs ih =>
    intro acc
    rw [List.foldl_cons, ih]
    unfold embedBatchStep
    set texts := (b.map (fileChunkTexts chunker)).flatten with ht
    by_cases hz : texts = []
    · have hz' : (b.map (fileChunkTexts chunker)).flatten = [] := by
        rw [← ht]; exact hz
      simp [hz, hz', List.filter_cons]
    · have hlen : ¬ texts.length = 0 := by
        simpa [List.length_eq_zero] using hz
      simp [hlen, List.filter_cons, hz]

theorem mem_slices10_length {α : Type} :
    ∀ (n : Nat) (l : List α), l.length ≤ n →
      ∀ s ∈ slices10 l, s.length ≤ 10 := by
  intro n
  induction n with
  | zero =>
    intro l hl s hs
    have : l = [] := List.length_eq_zero.mp (Nat.le_zero.mp hl)
    subst this
    simp [slices10] at hs
  | succ n ih =>
    intro l hl s hs
    match l with
    | [] => simp [slices10] at hs
    | c :: cs =>
      rw [slices10] at hs
      rcases List.mem_cons.mp hs with h | h
      · subst h
        exact List.length_take_le 10 (c :: cs)
      · refine ih ((c :: cs).drop 10) ?_ s h
        simp only [List.length_drop, List.length_cons] at *
        omega

/-! ### Sanitizer lemmas -/

theorem ne_dash_of_alnum {c : Char} (h : isAlnumLower c = true) : c ≠ '-' := by
  intro hc
  subst hc
  exact absurd h (by decide)

theorem jsLowerChar_fixed {c : Char} (h : isSlugChar c = true) : jsLowerChar c = c := by
  unfold jsLowerChar
  rw [if_neg]
  intro hcon
  obtain ⟨h1, h2⟩ := hcon
  simp [isSlugChar, isAlnumLower] at h
  rcases h with (⟨ha, hb⟩ | ⟨ha, hb⟩) | rfl
  · omega
  · omega
  · exact absurd h1 (by decide)

theorem isCombining_false_of_slug {c : Char} (h : isSlugChar c = true) :
    isCombining c = false := by
  unfold isCombining
  simp [isSlugChar, isAlnumLower] at h
  rcases h with (⟨ha, hb⟩ | ⟨ha, hb⟩) | rfl
  · simp; omega
  · simp; omega
  · decide

theorem mem_replaceRuns_slug : ∀ {l : Str} {c : Char},
    c ∈ replaceRuns l → isSlugChar c = true := by
  intro l
  induction l with
  | nil => intro c hc; simp [replaceRuns] at hc
  | cons a as ih =>
    intro c hc
    rw [replaceRuns] at hc
    by_cases ha : isAlnumLower a
    · rw [if_pos ha] at hc
      rcases List.mem_cons.mp hc with rfl | hc
      · simp [isSlugChar, ha]
      · exact ih hc
    · rw [if_neg ha] at hc
      by_cases hr : (replaceRuns as).head? = some '-'
      · rw [if_pos hr] at hc
        exact ih hc
      · rw [if_neg hr] at hc
        rcases List.mem_cons.mp hc with rfl | hc
        · decide
        · exact ih hc

theorem replaceRuns_chain (l : Str) : List.Chain' noDashPair (replaceRuns l) := by
  induction l with
  | nil => simp [replaceRuns]
  | cons a as ih =>
    rw [replaceRuns]
    by_cases ha : isAlnumLower a
    · rw [if_pos ha]
      refine List.chain'_cons'.mpr ⟨?_, ih⟩
      intro y _ hcon
      exact ne_dash_of_alnum ha hcon.1
    · rw [if_neg ha]
      by_cases hr : (replaceRuns as).head? = some '-'
      · rw [if_pos hr]; exact ih
      · rw [if_neg hr]
        refine List.chain'_cons'.mpr ⟨?_, ih⟩
        intro y hy hcon
        exact hr (by rw [← hcon.2]; exact hy)

theorem chain'_dropWhile {α : Type} {R : α → α → Prop} (p : α → Bool) :
    ∀ {l : List α}, List.Chain' R l → List.Chain' R (l.dropWhile p) := by
  intro l h
  induction l with
  | nil => simp
  | cons a as ih =>
    rw [List.dropWhile_cons]
    by_cases hp : p a
    · rw [if_pos hp]
      exact ih (List.chain'_cons'.mp h).2
    · rw [if_neg hp]
      exact h

theorem chain'_take {α : Type} {R : α → α → Prop} (n : Nat) {l : List α}
    (h : List.Chain' R l) : List.Chain' R (l.take n) := by
  rw [← List.take_append_drop n l] at h
  exact (List.chain'_append.mp h).1

theorem chain'_trimDashes {l : Str} (h : List.Chain' noDashPair l) :
    List.Chain' noDashPair (trimDashes l) := by
  unfold trimDashes
  refine List.chain'_reverse.mpr ?_
  refine chain'_dropWhile _ ?_
  have h1 : List.Chain' noDashPair (l.dropWhile (· == '-')) := chain'_dropWhile _ h
  have h2 : List.Chain' (flip noDashPair) ((l.dropWhile (· == '-')).reverse) :=
    List.chain'_reverse.mpr h1
  exact h2

theorem trimDashes_subset {l : Str} : ∀ c ∈ trimDashes l, c ∈ l := by
  intro c hc
  simp only [trimDashes, List.mem_reverse] at hc
  have h1 := (List.dropWhile_suffix (fun c => c == '-')).subset hc
  rw [List.mem_reverse] at h1
  exact (List.dropWhile_suffix _).subset h1

theorem trimDashes_length_le (l : Str) : (trimDashes l).length ≤ l.length := by
  unfold trimDashes
  rw [List.length_reverse]
  calc ((l.dropWhile (· == '-')).reverse.dropWhile (· == '-')).length
      ≤ (l.dropWhile (· == '-')).reverse.length :=
        (List.dropWhile_sublist _).length_le
    _ = (l.dropWhile (· == '-')).length := List.length_reverse _
    _ ≤ l.length := (List.dropWhile_sublist _).length_le

theorem head?_dropWhile_dash_ne {l : Str} {c : Char}
    (h : (l.dropWhile (· == '-')).head? = some c) : c ≠ '-' := by
  induction l with
  | nil => simp [List.dropWhile] at h
  | cons a as ih =>
    rw [List.dropWhile_cons] at h
    by_cases hp : (a == '-') = true
    · rw [if_pos hp] at h
      exact ih h
    · rw [if_neg hp] at h
      simp only [List.head?_cons, Option.some.injEq] at h
      subst h
      simpa using hp

theorem trimDashes_getLast?_ne {l : Str} {c : Char}
    (h : (trimDashes l).getLast? = some c) : c ≠ '-' := by
  unfold trimDashes at h
  rw [List.getLast?_reverse] at h
  exact head?_dropWhile_dash_ne h

theorem trimDashes_head?_ne {l : Str} {c : Char}
    (h : (trimDashes l).head? = some c) : c ≠ '-' := by
  unfold trimDashes at h
  rw [List.head?_reverse] at h
  set X := ((l.dropWhile (· == '-')).reverse.dropWhile (· == '-')) with hX
  obtain ⟨t, ht⟩ := List.dropWhile_suffix (l := (l.dropWhile (· == '-')).reverse)
    (· == '-')
  have hne : X ≠ [] := by
    intro hnil
    rw [hnil] at h
    simp at h
  have hlast : (t ++ X).getLast? = X.getLast? := List.getLast?_append_of_ne_nil _ hne
  rw [← hX] at ht
  rw [ht] at hlast
  rw [List.getLast?_reverse] at hlast
  have hhead : (l.dropWhile (· == '-')).head? = some c := by rw [hlast]; exact h
  exact head?_dropWhile_dash_ne hhead

theorem head?_take_pos {α : Type} (l : List α) (n : Nat) (hn : n ≠ 0) :
    (l.take n).head? = l.head? := by
  cases l with
  | nil => simp
  | cons a as =>
    cases n with
    | zero => exact absurd rfl hn
    | succ m => simp [List.take]

theorem sanitize_chars (nfd : Str → Str) (T : Str) :
    ∀ c ∈ sanitizeFilename nfd T, isSlugChar c = true := by
  intro c hc
  unfold sanitizeFilename at hc
  exact mem_replaceRuns_slug (trimDashes_subset _ (List.take_subset _ _ hc))

theorem sanitize_chain (nfd : Str → Str) (T : Str) :
    List.Chain' noDashPair (sanitizeFilename nfd T) := by
  unfold sanitizeFilename
  exact chain'_take _ (chain'_trimDashes (replaceRuns_chain _))

theorem sanitize_head (nfd : Str → Str) (T : Str) :
    (sanitizeFilename nfd T).head? ≠ some '-' := by
  unfold sanitizeFilename
  rw [head?_take_pos _ 100 (by omega)]
  intro h
  exact trimDashes_head?_ne h rfl

theorem sanitize_length_le (nfd : Str → Str) (T : Str) :
    (sanitizeFilename nfd T).length ≤ 100 := by
  unfold sanitizeFilename
  rw [List.length_take]
  exact Nat.min_le_left _ _

theorem sanitize_getLast_of_short (nfd : Str → Str) (T : Str)
    (h : (sanitizeFilename nfd T).length < 100) :
    (sanitizeFilename nfd T).getLast? ≠ some '-' := by
  unfold sanitizeFilename at *
  rw [List.length_take] at h
  have hlen : (trimDashes (replaceRuns
      ((nfd (T.map jsLowerChar)).filter (fun c => !isCombining c)))).length < 100 := by
    rcases Nat.lt_or_ge (trimDashes (replaceRuns
      ((nfd (T.map jsLowerChar)).filter (fun c => !isCombining c)))).length 100 with hlt | hge
    · exact hlt
    · rw [Nat.min_eq_left hge] at h
      omega
  rw [List.take_of_length_le (Nat.le_of_lt hlen)]
  intro hcon
  exact trimDashes_getLast?_ne hcon rfl

theorem replaceRuns_eq_self : ∀ {l : Str},
    (∀ c ∈ l, isSlugChar c = true) → List.Chain' noDashPair l →
    replaceRuns l = l := by
  intro l
  induction l with
  | nil => intro _ _; rfl
  | cons a as ih =>
    intro hs hc
    have has : ∀ c ∈ as, isSlugChar c = true := fun c h => hs c (List.mem_cons_of_mem a h)
    have hcas : List.Chain' noDashPair as := (List.chain'_cons'.mp hc).2
    rw [replaceRuns]
    by_cases ha : isAlnumLower a
    · rw [if_pos ha, ih has hcas]
    · have ha' : a = '-' := by
        have := hs a (List.mem_cons_self a as)
        simp [isSlugChar, ha] at this
        exact this
      have hh : ¬ (replaceRuns as).head? = some '-' := by
        rw [ih has hcas]
        intro hcontra
        have hrel := (List.chain'_cons'.mp hc).1 '-' hcontra
        exact hrel ⟨ha', rfl⟩
      rw [if_neg ha, if_neg hh, ih has hcas, ha']

theorem sanitize_of_slug (nfd : Str → Str)
    (hnfd : ∀ l : Str, (∀ c ∈ l, isSlugChar c = true) → nfd l = l)
    (s : Str) (hchars : ∀ c ∈ s, isSlugChar c = true)
    (hchain : List.Chain' noDashPair s) (hlen : s.length ≤ 100) :
    sanitizeFilename nfd s = trimDashes s := by
  show (trimDashes (replaceRuns
    ((nfd (s.map jsLowerChar)).filter (fun c => !isCombining c)))).take 100
      = trimDashes s
  have hmap : s.map jsLowerChar = s := by
    have hid : ∀ c ∈ s, jsLowerChar c = id c := fun c hc => jsLowerChar_fixed (hchars c hc)
    rw [List.map_congr_left hid, List.map_id]
  rw [hmap, hnfd s hchars]
  have hfilter : s.filter (fun c => !isCombining c) = s :=
    List.filter_eq_self.mpr fun c hc => by
      rw [isCombining_false_of_slug (hchars c hc)]
      rfl
  rw [hfilter, replaceRuns_eq_self hchars hchain]
  exact List.take_of_length_le (Nat.le_trans (trimDashes_length_le s) hlen)

/-! ## Claim C10 -/

/-- C10 (confirmed): every `IndexPageResult` produced by processing one
index page satisfies `processed = files.length` — the counter and the list
are updated together, only on a successful write — and consequently the
aggregate of any list of page results produced this way satisfies
`totalProcessed = allFiles.length`. -/
theorem C10_processed_matches_files (nfd : Str → Str) (baseUrl : Str)
    (anchors : List Anchor) (outcomes : List Bool)
    (pages : List (Str × List Anchor × List Bool)) :
    ((processIndexUrlModel nfd baseUrl anchors outcomes).1.processed
      = (processIndexUrlModel nfd baseUrl anchors outcomes).1.files.length)
    ∧ ((aggregateResults
          (pages.map fun x => (processIndexUrlModel nfd x.1 x.2.1 x.2.2).1)).totalProcessed
      = (aggregateResults
          (pages.map fun x => (processIndexUrlModel nfd x.1 x.2.1 x.2.2).1)).allFiles.length) := by
  refine ⟨processIndexUrlModel_processed nfd baseUrl anchors outcomes, ?_⟩
  refine aggregateResults_consistent _ ?_
  intro r hr
  obtain ⟨x, _, rfl⟩ := List.mem_map.mp hr
  exact processIndexUrlModel_processed nfd x.1 x.2.1 x.2.2

/-! ## Claim C2 -/

/-- C2 (counterexample): a corpus with a whitespace-only chunk on which
`totalChunks > totalEmbedded` fails.  The chunker yields a whitespace-only
chunk and a real one for the single file `y`, yet `totalChunks = 1`: the
whitespace-only chunk is discarded *before* it is counted
(`if (!text.trim()) continue` precedes `totalChunks += allChunkTexts.length`),
so `totalChunks = totalEmbedded` and the claimed strict inequality is
false. -/
theorem C2_whitespace_chunk_not_counted :
    (∃ t ∈ wsChunker (parseArticle ['y']).markdown, jsTrim t = []) ∧
    (embedPhase wsChunker oneFileCorpus).totalChunks = 1 ∧
    (embedPhase wsChunker oneFileCorpus).totalEmbedded = 1 ∧
    ¬ ((embedPhase wsChunker oneFileCorpus).totalChunks
        > (embedPhase wsChunker oneFileCorpus).totalEmbedded) := by
  have h : slices10 oneFileCorpus = [oneFileCorpus] := by
    simp [slices10, oneFileCorpus]
  refine ⟨⟨[' '], by decide, by decide⟩, ?_, ?_, ?_⟩ <;>
    (unfold embedPhase; rw [h]; decide)

/-- C2 (amended): `totalChunks` counts only chunks that survive the
whitespace filter — the running total is taken from `allChunkTexts` after
empty chunks are discarded — and since the embedding provider returns one
vector per text, `totalChunks = totalEmbedded` on every run that
completes. -/
theorem C2_amended_totals_equal (chunker : Str → List Str) (files : List Str) :
    (embedPhase chunker files).totalChunks
      = (embedPhase chunker files).totalEmbedded :=
  embed_foldl_totals chunker (slices10 files) ⟨[], 0, 0⟩ rfl

/-! ## Claim C1 -/

/-- C1 (counterexample): an embedding batch with more than 10 chunks.  A
single file whose chunker yields eleven non-whitespace chunks produces one
`embedMany` call with eleven texts, refuting "every embedding/upsert batch
contains at most 10 chunks". -/
theorem C1_batch_exceeds_ten :
    ¬ (∀ b ∈ (embedPhase elevenChunker oneFileCorpus).calls, b.length ≤ 10) := by
  have h : slices10 oneFileCorpus = [oneFileCorpus] := by
    simp [slices10, oneFileCorpus]
  have hE : (embedPhase elevenChunker oneFileCorpus).calls
      = [List.replicate 11 ['a']] := by
    unfold embedPhase; rw [h]; decide
  intro hall
  have h11 := hall (List.replicate 11 ['a']) (by rw [hE]; exact List.mem_singleton.mpr rfl)
  simp at h11

/-- C1 (amended): batches are sized by file count, not by chunk count:
the embedding/upsert calls are exactly the non-empty chunk-text
concatenations of consecutive slices of at most 10 files, so each call
draws from at most 10 files while its chunk count is unbounded. -/
theorem C1_amended_batches_by_file (chunker : Str → List Str) (files : List Str) :
    (∀ s ∈ slices10 files, s.length ≤ 10) ∧
    (embedPhase chunker files).calls
      = ((slices10 files).map
          (fun b => (b.map (fileChunkTexts chunker)).flatten)).filter (· ≠ []) := by
  refine ⟨mem_slices10_length files.length files (Nat.le_refl _), ?_⟩
  simpa using embed_foldl_calls chunker (slices10 files) ⟨[], 0, 0⟩

/-- C1 (witness): the amended statement applied at the one-file corpus. -/
theorem C1_amended_batches_by_file_witness :
    (∀ s ∈ slices10 oneFileCorpus, s.length ≤ 10) ∧
    (embedPhase elevenChunker oneFileCorpus).calls
      = ((slices10 oneFileCorpus).map
          (fun b => (b.map (fileChunkTexts elevenChunker)).flatten)).filter (· ≠ []) :=
  C1_amended_batches_by_file elevenChunker oneFileCorpus

/-! ## Claim C4 -/

/-- C4 (counterexample): a title whose slug before truncation has 103
characters (51 one-letter words separated by spaces).  Trimming happens
*before* `slice(0, 100)`, so the truncation cuts right after a hyphen and
the result ends in `-`, refuting "no leading or trailing hyphen".  (`nfd`
is instantiated with the identity: NFD normalization is the identity on
ASCII strings.) -/
theorem C4_trailing_hyphen_possible :
    (sanitizeFilename id longSpacedTitle).length = 100 ∧
    (sanitizeFilename id longSpacedTitle).getLast? = some '-' := by
  constructor <;> decide

/-- C4 (amended): for every normalization function and every title, the
sanitized name contains only characters from `[a-z0-9-]`, has no leading
hyphen, and has length at most 100; it also has no trailing hyphen
whenever its length is below 100 — a trailing hyphen can occur only when
truncation to exactly 100 characters cut immediately after one. -/
theorem C4_amended_slug_shape (nfd : Str → Str) (T : Str) :
    (∀ c ∈ sanitizeFilename nfd T, isSlugChar c = true) ∧
    (sanitizeFilename nfd T).head? ≠ some '-' ∧
    (sanitizeFilename nfd T).length ≤ 100 ∧
    ((sanitizeFilename nfd T).length < 100 →
      (sanitizeFilename nfd T).getLast? ≠ some '-') :=
  ⟨sanitize_chars nfd T, sanitize_head nfd T, sanitize_length_le nfd T,
    sanitize_getLast_of_short nfd T⟩

/-- C4 (witness): the amended statement applied at a concrete title whose
slug has fewer than 100 characters, so every conjunct is concretely
discharged. -/
theorem C4_amended_slug_shape_witness :
    (∀ c ∈ sanitizeFilename id plainTitle, isSlugChar c = true) ∧
    (sanitizeFilename id plainTitle).head? ≠ some '-' ∧
    (sanitizeFilename id plainTitle).length ≤ 100 ∧
    ((sanitizeFilename id plainTitle).length < 100 →
      (sanitizeFilename id plainTitle).getLast? ≠ some '-') :=
  C4_amended_slug_shape id plainTitle

/-! ## Claim C5 -/

/-- C5 (counterexample): idempotence fails on the same truncated-slug
title: the first pass ends in a hyphen (cut at 100), the second pass trims
that hyphen, so `sanitize (sanitize T) ≠ sanitize T`. -/
theorem C5_not_idempotent_after_truncation :
    sanitizeFilename id (sanitizeFilename id longSpacedTitle)
      ≠ sanitizeFilename id longSpacedTitle := by
  decide

/-- C5 (amended): for every normalization function that is the identity on
slug strings (as real NFD is on ASCII), re-sanitizing equals trimming the
hyphens of the first result: `sanitize (sanitize T) = trimDashes
(sanitize T)`.  Idempotence therefore holds exactly when the first result
does not end in a hyphen, and the only violation is the truncation cut of
C4. -/
theorem C5_amended_second_pass_trims (nfd : Str → Str)
    (hnfd : ∀ l : Str, (∀ c ∈ l, isSlugChar c = true) → nfd l = l) (T : Str) :
    sanitizeFilename nfd (sanitizeFilename nfd T)
      = trimDashes (sanitizeFilename nfd T) :=
  sanitize_of_slug nfd hnfd (sanitizeFilename nfd T)
    (sanitize_chars nfd T) (sanitize_chain nfd T) (sanitize_length_le nfd T)

/-- C5 (witness): the amended statement applied with the identity
normalization at a concrete title. -/
theorem C5_amended_second_pass_trims_witness :
    sanitizeFilename id (sanitizeFilename id plainTitle)
      = trimDashes (sanitizeFilename id plainTitle) :=
  C5_amended_second_pass_trims id (fun _ _ => rfl) plainTitle

/-! ## Claim C6 -/

theorem filterMap_length_countP {α β : Type} (f : α → Option β) :
    ∀ l : List α, (l.filterMap f).length = l.countP (fun a => (f a).isSome) := by
  intro l
  induction l with
  | nil => rfl
  | cons a as ih =>
    rw [List.filterMap_cons, List.countP_cons]
    cases hf : f a with
    | none => simp [hf, ih]
    | some b => simp [hf, ih]

/-- C6 (counterexample): two qualifying anchors with the same href on one
page produce two identical entries — the extractor pushes every qualifying
anchor and performs no deduplication, refuting "no two entries in the
result have the same url". -/
theorem C6_duplicate_urls_kept :
    (extractLinks someBase [okAnchor, okAnchor]).length = 2 ∧
    ¬ (extractLinks someBase [okAnchor, okAnchor]).Pairwise
        (fun x y => x.url ≠ y.url) := by
  constructor <;> decide

/-- C6 (amended): the extractor emits one entry per qualifying anchor in
DOM order with no deduplication; the result is unique by URL exactly when
the qualifying anchors themselves resolve to pairwise distinct URLs (and
then "first occurrence kept" holds trivially because every occurrence is
kept). -/
theorem C6_amended_no_dedupe (baseUrl : Str) (anchors : List Anchor) :
    (extractLinks baseUrl anchors).length
      = anchors.countP (fun a => (qualify baseUrl a).isSome) ∧
    (anchors.Pairwise (fun a a' => ∀ l ∈ qualify baseUrl a,
        ∀ l' ∈ qualify baseUrl a', l.url ≠ l'.url) →
      (extractLinks baseUrl anchors).Pairwise (fun x y => x.url ≠ y.url)) := by
  refine ⟨filterMap_length_countP _ anchors, ?_⟩
  intro h
  exact List.pairwise_filterMap.mpr h

/-- C6 (witness): the amended statement applied to two qualifying anchors
with distinct hrefs; the distinctness hypothesis is discharged by
computation. -/
theorem C6_amended_no_dedupe_witness :
    (extractLinks someBase [okAnchor, okAnchor2]).length
      = ([okAnchor, okAnchor2].countP (fun a => (qualify someBase a).isSome)) ∧
    ((extractLinks someBase [okAnchor, okAnchor2]).Pairwise
        (fun x y => x.url ≠ y.url)) :=
  ⟨(C6_amended_no_dedupe someBase [okAnchor, okAnchor2]).1,
    (C6_amended_no_dedupe someBase [okAnchor, okAnchor2]).2 (by decide)⟩

/-! ## Claim C7 -/

/-- C7 (confirmed; the single-page half is modelled from the spec): when
link extraction yields zero valid article links, the multi-page unit of
work returns `{processed: 0, files: []}` without failing, while the
single-page entry point fails with `NoLinksFoundError`. -/
theorem C7_zero_links (nfd : Str → Str) (baseUrl : Str) (anchors : List Anchor)
    (outcomes : List Bool) (h : extractLinks baseUrl anchors = []) :
    processIndexUrlModel nfd baseUrl anchors outcomes
        = ({ processed := 0, files := [] }, []) ∧
    processSinglePage nfd baseUrl anchors outcomes
        = .error .noLinksFound := by
  unfold processIndexUrlModel processSinglePage
  rw [h]
  simp

/-- C7 (witness): a page with no anchors at all. -/
theorem C7_zero_links_witness :
    processIndexUrlModel id someBase [] []
        = ({ processed := 0, files := [] }, []) ∧
    processSinglePage id someBase [] [] = .error .noLinksFound :=
  C7_zero_links id someBase [] [] rfl

/-! ## Claim C8 -/

theorem articleLoop_delay_count (nfd : Str → Str) :
    ∀ (L : List (ArticleLink × Bool)) (p : Nat),
      (articleLoop nfd p L).events.countP isDelay
        = if 0 < p then L.length else delaysExpected L := by
  intro L
  induction L with
  | nil => intro p; simp [articleLoop, delaysExpected]
  | cons hd tl ih =>
    intro p
    obtain ⟨l, ok⟩ := hd
    cases ok with
    | true =>
      have h1 := ih (p + 1)
      rw [if_pos (Nat.succ_pos p)] at h1
      simp only [articleLoop, delaysExpected, if_true]
      rw [List.countP_append, List.countP_cons]
      by_cases hp : 0 < p
      · simp [hp, h1, isDelay, List.length_cons]
        try omega
      · simp [hp, h1, isDelay]
        try omega
    | false =>
      have h1 := ih p
      simp only [articleLoop, delaysExpected, Bool.false_eq_true, if_false]
      rw [List.countP_append, List.countP_cons]
      by_cases hp : 0 < p
      · simp [hp, h1, isDelay, List.length_cons]
        try omega
      · simp [hp, h1, isDelay]
        try omega

/-- C8 (counterexample): a page with two articles where the first fails:
the two fetches are consecutive with no delay between them — the delay is
gated on `processed > 0`, a success count, not on "not the first article".
This refutes "a 500 ms pause occurs between every pair of consecutive
article fetches (including when an earlier article failed)". -/
theorem C8_no_delay_after_leading_failure :
    failThenOk.length = 2 ∧
    (articleLoop id 0 failThenOk).events
      = [.fetchArticle ['u', '1'], .fetchArticle ['u', '2']] ∧
    (articleLoop id 0 failThenOk).events.countP isDelay = 0 := by
  refine ⟨rfl, ?_, ?_⟩ <;> decide

/-- C8 (amended): no pause precedes the first fetch of a page, and the
number of 500 ms pauses equals the number of articles strictly after the
first *successful* one: every fetch after the first success is preceded by
a pause (including after later failures), but articles fetched before any
success has occurred get no preceding pause. -/
theorem C8_amended_pause_after_first_success (nfd : Str → Str)
    (links : List (ArticleLink × Bool)) :
    ((articleLoop nfd 0 links).events.countP isDelay = delaysExpected links) ∧
    (∀ x rest, links = x :: rest →
      (articleLoop nfd 0 links).events.head?
        = some (.fetchArticle x.1.url)) := by
  constructor
  · have h := articleLoop_delay_count nfd links 0
    simpa using h
  · intro x rest hlinks
    subst hlinks
    obtain ⟨l, ok⟩ := x
    cases ok <;> simp [articleLoop]

/-- C8 (witness): the amended statement at the fail-then-succeed page. -/
theorem C8_amended_pause_after_first_success_witness :
    ((articleLoop id 0 failThenOk).events.countP isDelay
        = delaysExpected failThenOk) ∧
    (articleLoop id 0 failThenOk).events.head?
        = some (.fetchArticle ['u', '1']) :=
  ⟨(C8_amended_pause_after_first_success id failThenOk).1,
   (C8_amended_pause_after_first_success id failThenOk).2 _ _ rfl⟩

/-! ### Round-trip lemmas for the frontmatter format -/

theorem ne_nl_of_good {c : Char} (h : goodChar c) : c ≠ '\n' := by
  intro hc
  subst hc
  have := h.2
  simp [isLineTerm] at this

theorem dot_of_good {c : Char} (h : goodChar c) : isDot c = true ∧ c ≠ '"' := by
  refine ⟨?_, h.1⟩
  unfold isDot
  rw [h.2]
  rfl

theorem leadsWith_append (p r : Str) : leadsWith p (p ++ r) = true := by
  induction p with
  | nil => rfl
  | cons a as ih => simp [leadsWith, ih]

theorem leadsWith_no_cross {key : Str} (hq : '"' ∉ key) :
    ∀ {u z : Str}, leadsWith key (u ++ '"' :: z) = true → key.length ≤ u.length := by
  induction key with
  | nil => intro u z _; exact Nat.zero_le _
  | cons k ks ih =>
    intro u z h
    cases u with
    | nil =>
      rw [List.nil_append, leadsWith] at h
      have hk : k = '"' := by
        have := (Bool.and_eq_true _ _).mp h
        exact eq_of_beq this.1
      exact absurd (hk ▸ List.mem_cons_self k ks) hq
    | cons a u' =>
      rw [List.cons_append, leadsWith] at h
      have h2 := ((Bool.and_eq_true _ _).mp h).2
      have hks : '"' ∉ ks := fun hm => hq (List.mem_cons_of_mem k hm)
      simpa [List.length_cons] using Nat.succ_le_succ (ih hks h2)

theorem splitAtSub_self (pat r : Str) (hp : pat ≠ []) :
    splitAtSub pat (pat ++ r) = some ([], r) := by
  cases pat with
  | nil => exact absurd rfl hp
  | cons p ps =>
    rw [List.cons_append, splitAtSub, ← List.cons_append,
      if_pos (leadsWith_append (p :: ps) r), List.drop_left]

theorem splitAtSub_skip_char {pat : Str} (c : Char) (cs : Str)
    (h : leadsWith pat (c :: cs) = false) :
    splitAtSub pat (c :: cs) = (splitAtSub pat cs).map (fun q => (c :: q.1, q.2)) := by
  rw [splitAtSub, if_neg (by rw [h]; exact Bool.false_ne_true)]
  cases splitAtSub pat cs with
  | none => rfl
  | some q => rfl

theorem splitAtSub_skip_block {pat : Str} {h₀ : Char} (hp : pat.head? = some h₀) :
    ∀ {t rest : Str}, (∀ c ∈ t, c ≠ h₀) →
    splitAtSub pat (t ++ rest) = (splitAtSub pat rest).map (fun q => (t ++ q.1, q.2)) := by
  intro t
  induction t with
  | nil =>
    intro rest _
    rw [List.nil_append]
    cases hsp : splitAtSub pat rest <;> simp [hsp]
  | cons a t' ih =>
    intro rest ht
    have ha : a ≠ h₀ := ht a (List.mem_cons_self a t')
    have hlw : leadsWith pat (a :: (t' ++ rest)) = false := by
      cases pat with
      | nil => simp at hp
      | cons p ps =>
        have hph : p = h₀ := by simpa using hp
        rw [leadsWith]
        have hpa : (p == a) = false := by
          rw [beq_eq_false_iff_ne, hph]
          exact fun he => ha he.symm
        rw [hpa, Bool.false_and]
    rw [List.cons_append, splitAtSub_skip_char a _ hlw,
      ih (fun c hc => ht c (List.mem_cons_of_mem a hc))]
    cases hsp : splitAtSub pat rest <;> simp [hsp]

theorem escapeQuotes_id : ∀ {t : Str}, (∀ c ∈ t, c ≠ '"') → escapeQuotes t = t := by
  intro t
  induction t with
  | nil => intro _; rfl
  | cons a as ih =>
    intro h
    have ha : (a == '"') = false := by
      rw [beq_eq_false_iff_ne]
      exact h a (List.mem_cons_self a as)
    rw [escapeQuotes, if_neg (by rw [ha]; exact Bool.false_ne_true),
      ih (fun c hc => h c (List.mem_cons_of_mem a hc))]

set_option maxHeartbeats 1000000 in
theorem frontmatterSplit_writeArticle (title url ts markdown : Str)
    (htq : ∀ c ∈ title, goodChar c) (huq : ∀ c ∈ url, goodChar c)
    (hts : ∀ c ∈ ts, goodChar c) :
    frontmatterSplit (writeArticle title url ts markdown)
      = some (titleKey ++ quoteOpen ++ title ++ quoteClose ++
              sourceKey ++ quoteOpen ++ url ++ quoteClose ++
              scrapedKey ++ quoteOpen ++ ts ++ ['"'], markdown) := by
  have hA : ∀ c ∈ (titleKey ++ (quoteOpen ++ (title ++ (['"'] : Str)))), c ≠ '\n' :=
    List.forall_mem_append.mpr ⟨by decide,
      List.forall_mem_append.mpr ⟨by decide,
        List.forall_mem_append.mpr
          ⟨fun c hc => ne_nl_of_good (htq c hc), by decide⟩⟩⟩
  have hB : ∀ c ∈ (sourceKey ++ (quoteOpen ++ (url ++ (['"'] : Str)))), c ≠ '\n' :=
    List.forall_mem_append.mpr ⟨by decide,
      List.forall_mem_append.mpr ⟨by decide,
        List.forall_mem_append.mpr
          ⟨fun c hc => ne_nl_of_good (huq c hc), by decide⟩⟩⟩
  have hC : ∀ c ∈ (scrapedKey ++ (quoteOpen ++ (ts ++ (['"'] : Str)))), c ≠ '\n' :=
    List.forall_mem_append.mpr ⟨by decide,
      List.forall_mem_append.mpr ⟨by decide,
        List.forall_mem_append.mpr
          ⟨fun c hc => ne_nl_of_good (hts c hc), by decide⟩⟩⟩
  have h1 : splitAtSub fmSep (fmSep ++ ('\n' :: markdown)) = some ([], '\n' :: markdown) :=
    splitAtSub_self _ _ (by decide)
  have h2 : splitAtSub fmSep
      ((scrapedKey ++ (quoteOpen ++ (ts ++ ['"']))) ++ (fmSep ++ ('\n' :: markdown)))
      = some (scrapedKey ++ (quoteOpen ++ (ts ++ ['"'])), '\n' :: markdown) := by
    rw [splitAtSub_skip_block (show fmSep.head? = some '\n' from rfl) hC, h1]
    simp
  have hlw3 : leadsWith fmSep ('\n' ::
      ((scrapedKey ++ (quoteOpen ++ (ts ++ ['"']))) ++ (fmSep ++ ('\n' :: markdown))))
      = false := by
    simp [fmSep, leadsWith, scrapedKey]
  have h3 : splitAtSub fmSep ('\n' ::
      ((scrapedKey ++ (quoteOpen ++ (ts ++ ['"']))) ++ (fmSep ++ ('\n' :: markdown))))
      = some ('\n' :: (scrapedKey ++ (quoteOpen ++ (ts ++ ['"']))), '\n' :: markdown) := by
    rw [splitAtSub_skip_char _ _ hlw3, h2]
    rfl
  have h4 : splitAtSub fmSep
      ((sourceKey ++ (quoteOpen ++ (url ++ ['"']))) ++ ('\n' ::
        ((scrapedKey ++ (quoteOpen ++ (ts ++ ['"']))) ++ (fmSep ++ ('\n' :: markdown)))))
      = some ((sourceKey ++ (quoteOpen ++ (url ++ ['"']))) ++
          ('\n' :: (scrapedKey ++ (quoteOpen ++ (ts ++ ['"'])))), '\n' :: markdown) := by
    rw [splitAtSub_skip_block (show fmSep.head? = some '\n' from rfl) hB, h3]
    rfl
  have hlw5 : leadsWith fmSep ('\n' ::
      ((sourceKey ++ (quoteOpen ++ (url ++ ['"']))) ++ ('\n' ::
        ((scrapedKey ++ (quoteOpen ++ (ts ++ ['"']))) ++ (fmSep ++ ('\n' :: markdown))))))
      = false := by
    simp [fmSep, leadsWith, sourceKey]
  have h5 : splitAtSub fmSep ('\n' ::
      ((sourceKey ++ (quoteOpen ++ (url ++ ['"']))) ++ ('\n' ::
        ((scrapedKey ++ (quoteOpen ++ (ts ++ ['"']))) ++ (fmSep ++ ('\n' :: markdown))))))
      = some ('\n' :: ((sourceKey ++ (quoteOpen ++ (url ++ ['"']))) ++
          ('\n' :: (scrapedKey ++ (quoteOpen ++ (ts ++ ['"']))))), '\n' :: markdown) := by
    rw [splitAtSub_skip_char _ _ hlw5, h4]
    rfl
  have h6 : splitAtSub fmSep
      ((titleKey ++ (quoteOpen ++ (title ++ ['"']))) ++ ('\n' ::
        ((sourceKey ++ (quoteOpen ++ (url ++ ['"']))) ++ ('\n' ::
          ((scrapedKey ++ (quoteOpen ++ (ts ++ ['"']))) ++ (fmSep ++ ('\n' :: markdown)))))))
      = some ((titleKey ++ (quoteOpen ++ (title ++ ['"']))) ++
          ('\n' :: ((sourceKey ++ (quoteOpen ++ (url ++ ['"']))) ++
            ('\n' :: (scrapedKey ++ (quoteOpen ++ (ts ++ ['"'])))))), '\n' :: markdown) := by
    rw [splitAtSub_skip_block (show fmSep.head? = some '\n' from rfl) hA, h5]
    rfl
  unfold writeArticle frontmatterSplit
  rw [escapeQuotes_id (fun c hc => (htq c hc).1)]
  simp only [List.append_assoc]
  rw [if_pos (leadsWith_append fmOpen _)]
  rw [show (4 : Nat) = fmOpen.length from rfl, List.drop_left]
  have hshape : (titleKey ++ (quoteOpen ++ (title ++ (quoteClose ++
      (sourceKey ++ (quoteOpen ++ (url ++ (quoteClose ++
        (scrapedKey ++ (quoteOpen ++ (ts ++ (quoteClose ++
          ((['-', '-', '-', '\n', '\n'] : Str) ++ markdown)))))))))))))
      = ((titleKey ++ (quoteOpen ++ (title ++ ['"']))) ++ ('\n' ::
        ((sourceKey ++ (quoteOpen ++ (url ++ ['"']))) ++ ('\n' ::
          ((scrapedKey ++ (quoteOpen ++ (ts ++ ['"']))) ++ (fmSep ++ ('\n' :: markdown))))))) := by
    simp [quoteClose, fmSep, List.append_assoc]
  rw [hshape, h6]
  simp [quoteClose, List.append_assoc]

theorem capLoop_append {t z : Str} (ht : ∀ c ∈ t, isDot c = true ∧ c ≠ '"') :
    capLoop (t ++ '"' :: z) = some t := by
  induction t with
  | nil =>
    rw [List.nil_append, capLoop, if_pos (by rfl)]
  | cons a t' ih =>
    have ha := ht a (List.mem_cons_self a t')
    rw [List.cons_append, capLoop,
      if_neg (by rw [beq_eq_false_iff_ne.mpr ha.2]; exact Bool.false_ne_true),
      if_pos ha.1, ih (fun c hc => ht c (List.mem_cons_of_mem a hc))]
    rfl

theorem lazyCap_append {t z : Str} (hne : t ≠ [])
    (ht : ∀ c ∈ t, isDot c = true ∧ c ≠ '"') :
    lazyCap (t ++ '"' :: z) = some t := by
  cases t with
  | nil => exact absurd rfl hne
  | cons a t' =>
    have ha := ht a (List.mem_cons_self a t')
    rw [List.cons_append, lazyCap, if_pos ha.1,
      capLoop_append (fun c hc => ht c (List.mem_cons_of_mem a hc))]
    rfl

theorem afterKey_quoteOpen (X : Str) : afterKey (quoteOpen ++ X) = lazyCap X := by
  rw [afterKey]
  have h : (quoteOpen ++ X).dropWhile isJsWs = '"' :: X := by
    show ((' ' :: '"' :: []) ++ X).dropWhile isJsWs = '"' :: X
    rw [List.cons_append, List.dropWhile_cons, if_pos (by decide),
      List.cons_append, List.dropWhile_cons, if_neg (by decide), List.nil_append]
  rw [h]
  show (if ('"' == '"') = true then lazyCap X else none) = lazyCap X
  rw [if_pos (by decide)]

theorem afterKey_none {u z : Str} (hu : ∀ c ∈ u, c ≠ '"') :
    afterKey (u ++ '"' :: '\n' :: z) = none := by
  induction u with
  | nil =>
    rw [List.nil_append, afterKey, List.dropWhile_cons, if_neg (by decide)]
    show (if ('"' == '"') = true then lazyCap ('\n' :: z) else none) = none
    rw [if_pos (by decide), lazyCap, if_neg (by decide)]
  | cons a u' ih =>
    have ha := hu a (List.mem_cons_self a u')
    rw [List.cons_append, afterKey, List.dropWhile_cons]
    by_cases hw : isJsWs a = true
    · rw [if_pos hw]
      rw [afterKey] at ih
      exact ih (fun c hc => hu c (List.mem_cons_of_mem a hc))
    · rw [if_neg hw]
      show (if (a == '"') = true then lazyCap (u' ++ '"' :: '\n' :: z) else none) = none
      rw [if_neg (by rw [beq_eq_false_iff_ne.mpr ha]; exact Bool.false_ne_true)]

theorem findKeyQuoted_skip_char {key : Str} (c : Char) (cs : Str)
    (h : leadsWith key (c :: cs) = false) :
    findKeyQuoted key (c :: cs) = findKeyQuoted key cs := by
  rw [findKeyQuoted, if_neg (by rw [h]; exact Bool.false_ne_true)]

theorem findKeyQuoted_self_pos {key X : Str} {v : Str} (hk : key ≠ [])
    (hA : afterKey X = some v) :
    findKeyQuoted key (key ++ X) = some v := by
  cases key with
  | nil => exact absurd rfl hk
  | cons k ks =>
    rw [List.cons_append, findKeyQuoted, ← List.cons_append,
      if_pos (leadsWith_append (k :: ks) X), List.drop_left, hA]

theorem findKeyQuoted_skip_block {key : Str} (hkq : ∀ c ∈ key, c ≠ '"')
    (rest : Str) :
    ∀ {t : Str}, (∀ c ∈ t, c ≠ '"') →
    findKeyQuoted key (t ++ ('"' :: '\n' :: rest))
      = findKeyQuoted key ('"' :: '\n' :: rest) := by
  intro t
  induction t with
  | nil => intro _; rw [List.nil_append]
  | cons a t' ih =>
    intro ht
    have ht' : ∀ c ∈ t', c ≠ '"' := fun c hc => ht c (List.mem_cons_of_mem a hc)
    rw [List.cons_append]
    by_cases hlw : leadsWith key (a :: (t' ++ '"' :: '\n' :: rest)) = true
    · have hq : '"' ∉ key := fun hm => hkq '"' hm rfl
      have hlen : key.length ≤ (a :: t').length := by
        have h := leadsWith_no_cross hq (u := a :: t') (z := '\n' :: rest)
        exact h (by rw [List.cons_append]; exact hlw)
      rw [findKeyQuoted, if_pos hlw]
      have hdrop : (a :: (t' ++ '"' :: '\n' :: rest)).drop key.length
          = (a :: t').drop key.length ++ '"' :: '\n' :: rest := by
        rw [← List.cons_append]
        exact List.drop_append_of_le_length hlen
      rw [hdrop, afterKey_none
        (fun c hc => ht c (List.mem_of_mem_drop hc))]
      exact ih ht'
    · rw [findKeyQuoted,
        if_neg hlw, ih ht']

theorem findKeyQuoted_title_fm (title url ts : Str) (hne : title ≠ [])
    (htq : ∀ c ∈ title, goodChar c) :
    findKeyQuoted titleKey
      (titleKey ++ (quoteOpen ++ (title ++ ('"' :: '\n' ::
        (sourceKey ++ (quoteOpen ++ (url ++ ('"' :: '\n' ::
          (scrapedKey ++ (quoteOpen ++ (ts ++ (['"'] : Str))))))))))))
      = some title := by
  apply findKeyQuoted_self_pos (by decide)
  rw [afterKey_quoteOpen]
  exact lazyCap_append hne (fun c hc => dot_of_good (htq c hc))

theorem findKeyQuoted_source_fm (title url ts : Str) (hune : url ≠ [])
    (htq : ∀ c ∈ title, goodChar c) (huq : ∀ c ∈ url, goodChar c) :
    findKeyQuoted sourceKey
      (titleKey ++ (quoteOpen ++ (title ++ ('"' :: '\n' ::
        (sourceKey ++ (quoteOpen ++ (url ++ ('"' :: '\n' ::
          (scrapedKey ++ (quoteOpen ++ (ts ++ (['"'] : Str))))))))))))
      = some url := by
  have hshape : (titleKey ++ (quoteOpen ++ (title ++ ('"' :: '\n' ::
      (sourceKey ++ (quoteOpen ++ (url ++ ('"' :: '\n' ::
        (scrapedKey ++ (quoteOpen ++ (ts ++ (['"'] : Str)))))))))))) =
      't' :: 'i' :: 't' :: 'l' :: 'e' :: ':' :: ' ' :: '"' ::
        (title ++ ('"' :: '\n' ::
          (sourceKey ++ (quoteOpen ++ (url ++ ('"' :: '\n' ::
            (scrapedKey ++ (quoteOpen ++ (ts ++ (['"'] : Str)))))))))) := by
    simp [titleKey, quoteOpen]
  rw [hshape]
  rw [findKeyQuoted_skip_char _ _ (by simp [sourceKey, leadsWith]),
    findKeyQuoted_skip_char _ _ (by simp [sourceKey, leadsWith]),
    findKeyQuoted_skip_char _ _ (by simp [sourceKey, leadsWith]),
    findKeyQuoted_skip_char _ _ (by simp [sourceKey, leadsWith]),
    findKeyQuoted_skip_char _ _ (by simp [sourceKey, leadsWith]),
    findKeyQuoted_skip_char _ _ (by simp [sourceKey, leadsWith]),
    findKeyQuoted_skip_char _ _ (by simp [sourceKey, leadsWith]),
    findKeyQuoted_skip_char _ _ (by simp [sourceKey, leadsWith])]
  rw [findKeyQuoted_skip_block (by decide) _ (fun c hc => (htq c hc).1)]
  rw [findKeyQuoted_skip_char _ _ (by simp [sourceKey, leadsWith]),
    findKeyQuoted_skip_char _ _ (by simp [sourceKey, leadsWith])]
  apply findKeyQuoted_self_pos (by decide)
  rw [afterKey_quoteOpen]
  exact lazyCap_append hune (fun c hc => dot_of_good (huq c hc))

/-! ## Claim C3 -/

/-- C3 (counterexample): the round-trip fails for a title containing an
embedded double quote.  The title `a"b` is written escaped as `a\"b`, but
the lazy re-parse `"(.+?)"` stops at the first quote character — the one
inside the escape — and recovers `a\`; no unescaping is performed. -/
theorem C3_quote_breaks_roundtrip :
    (parseArticle (writeArticle quotedTitle plainUrl plainTs plainBody)).title
        = ['a', '\\'] ∧
    (parseArticle (writeArticle quotedTitle plainUrl plainTs plainBody)).title
        ≠ quotedTitle := by
  constructor <;> decide

/-- C3 (amended): the round-trip does hold for every article whose title
and source URL are free of double quotes and line terminators (and
non-empty, matching the non-empty capture `(.+?)`), for any
quote/newline-free timestamp: re-parsing the written file recovers the
title, the source URL, and the Markdown body exactly.  Quotes are *not*
restored on re-parse — the code never unescapes — so quote-bearing titles
are excluded. -/
theorem C3_amended_roundtrip (title url ts markdown : Str)
    (hne : title ≠ []) (htq : ∀ c ∈ title, goodChar c)
    (hune : url ≠ []) (huq : ∀ c ∈ url, goodChar c)
    (hts : ∀ c ∈ ts, goodChar c) :
    parseArticle (writeArticle title url ts markdown)
      = { title := title, source := url, markdown := markdown } := by
  unfold parseArticle
  rw [frontmatterSplit_writeArticle title url ts markdown htq huq hts]
  have hFM : (titleKey ++ quoteOpen ++ title ++ quoteClose ++
      sourceKey ++ quoteOpen ++ url ++ quoteClose ++
      scrapedKey ++ quoteOpen ++ ts ++ (['"'] : Str)) =
      (titleKey ++ (quoteOpen ++ (title ++ ('"' :: '\n' ::
        (sourceKey ++ (quoteOpen ++ (url ++ ('"' :: '\n' ::
          (scrapedKey ++ (quoteOpen ++ (ts ++ (['"'] : Str)))))))))))) := by
    simp [quoteClose, List.append_assoc]
  rw [hFM]
  show ({ title := (findKeyQuoted titleKey _).getD [],
          source := (findKeyQuoted sourceKey _).getD [],
          markdown := markdown } : ParsedArticle) = _
  rw [findKeyQuoted_title_fm title url ts hne htq,
    findKeyQuoted_source_fm title url ts hune htq huq]
  rfl

/-- C3 (witness): the amended round-trip at a plain title, URL, timestamp
and body. -/
theorem C3_amended_roundtrip_witness :
    parseArticle (writeArticle plainTitle plainUrl plainTs plainBody)
      = { title := plainTitle, source := plainUrl, markdown := plainBody } :=
  C3_amended_roundtrip plainTitle plainUrl plainTs plainBody
    (by decide) (by decide) (by decide) (by decide) (by decide)

end Medevio
